import Mathlib

/-!
Verification of the appcat merge-and-synthesis engine.

This file shallowly embeds the configuration-merge engine
(`merge.go`: `getValueByPath`, `setValueByPath`, `deepCopy`,
`mergeConfigs`) and the secret lifecycle / template substitution
(`resources.go`: `getOrGeneratePassword`, `generateRandomPassword`,
`substituteVariables`) and proves the spec's testable properties
about them.

Go's dynamic `map[string]interface{}` values are embedded as the
inductive type `Value` below; Go maps become association lists in
declaration order (Go map iteration order is unspecified; the claims
settled here do not depend on it).  Randomness (`crypto/rand.Read`) is
externalized: functions that consume random bytes take them as an
explicit argument.  Fallible Go functions returning `(T, error)`
become `Except`-valued functions, with the distinct `fmt.Errorf` sites
tagged by the error taxonomy of the spec.
-/

namespace AppCat

/-- Embedding of Go's `interface{}` values as produced by
`structpb`/`AsMap`: scalars, nested string-keyed maps, and sequences.
Maps are association lists; sequences are by-value lists (the merge
engine never mutates a slice in place). -/
inductive Value where
  | null
  | bool (b : Bool)
  | int (n : Int)
  | str (s : String)
  | map (entries : List (String × Value))
  | arr (elems : List Value)

/-- A Go `map[string]interface{}` (one mapping level). -/
abbrev Obj := List (String × Value)

/-- Go map read `m[k]`: first binding of `k`, if any. -/
def lookupKey {α : Type} : List (String × α) → String → Option α
  | [], _ => none
  | (k', v) :: rest, k => if k' = k then some v else lookupKey rest k

/-- Go map assignment `m[k] = v`: overwrite the binding of `k`,
or append a new binding. -/
def setKey {α : Type} : List (String × α) → String → α → List (String × α)
  | [], k, v => [(k, v)]
  | (k', v') :: rest, k, v =>
    if k' = k then (k, v) :: rest else (k', v') :: setKey rest k v

/-- `strings.Split(path, ".")`: splits on each `'.'`; the empty string
yields `[""]` (never the empty list). -/
def splitDot (s : String) : List String :=
  go s.data []
where
  /-- Accumulates the current segment while scanning. -/
  go : List Char → List Char → List String
  | [], acc => [String.mk acc]
  | c :: rest, acc =>
    if c = '.' then String.mk acc :: go rest [] else go rest (acc ++ [c])

/-- The distinct failure sites of the path accessor, tagged by the
spec's error taxonomy: `typeMismatch` for "expected map at part …",
`notFound` for "key … not found", `invalidPath` for "empty path". -/
inductive PathErr where
  | typeMismatch
  | notFound
  | invalidPath
deriving DecidableEq, Repr

/-- The traversal loop of `getValueByPath`: walk the remaining path
segments from `current`, requiring a map at every non-final step. -/
def getGo : Value → List String → Except PathErr Value
  | v, [] => .ok v
  | v, p :: rest =>
    match v with
    | .map m =>
      match lookupKey m p with
      | some v' => getGo v' rest
      | none => .error .notFound
    | _ => .error .typeMismatch

/-- `getValueByPath` from `merge.go`: split the path on `.`, skip a
leading segment equal to `"spec"`, and walk the map. -/
def getValueByPath (data : Obj) (path : String) : Except PathErr Value :=
  let parts := splitDot path
  let parts :=
    match parts with
    | p :: rest => if p = "spec" then rest else p :: rest
    | [] => []
  getGo (.map data) parts

/-- The navigation loop of `setValueByPath`: walk/create intermediate
maps for every segment but the last, then assign at the final segment.
(The Go original mutates in place; this returns the updated map.  The
Go loop creates a fresh empty map for a missing intermediate key and
fails if an existing intermediate value is not a map.) -/
def setGo : Obj → List String → Value → Except PathErr Obj
  | _, [], _ => .error .invalidPath
  | m, [last], v => .ok (setKey m last v)
  | m, p :: q :: rest, v =>
    match (lookupKey m p).getD (.map []) with
    | .map nm =>
      match setGo nm (q :: rest) v with
      | .ok nm' => .ok (setKey m p (.map nm'))
      | .error e => .error e
    | _ => .error .typeMismatch

/-- `setValueByPath` from `merge.go`.  The `parts.isEmpty` test mirrors
the Go guard `len(parts) == 0` (which is unreachable, since
`strings.Split` never returns an empty slice). -/
def setValueByPath (data : Obj) (path : String) (v : Value) : Except PathErr Obj :=
  let parts := splitDot path
  if parts.isEmpty then .error .invalidPath else setGo data parts v

mutual
/-- The per-value `switch` inside `deepCopy`/`deepCopySlice`. -/
def deepCopyVal : Value → Value
  | .map m => .map (deepCopy m)
  | .arr a => .arr (deepCopySlice a)
  | .null => .null
  | .bool b => .bool b
  | .int n => .int n
  | .str s => .str s

/-- `deepCopy` from `merge.go`: entrywise deep copy of a map. -/
def deepCopy : Obj → Obj
  | [] => []
  | (k, v) :: rest => (k, deepCopyVal v) :: deepCopy rest

/-- `deepCopySlice` from `merge.go`: elementwise deep copy of a slice. -/
def deepCopySlice : List Value → List Value
  | [] => []
  | v :: rest => deepCopyVal v :: deepCopySlice rest
end

/-- Failure sites of `mergeConfigs`: the two shape assertions on the
service config, and a propagated `setValueByPath` failure. -/
inductive MergeErr where
  | defaultsNotMap
  | mappingNotMap
  | setFailed (e : PathErr)
deriving DecidableEq, Repr

/-- The mapping loop of `mergeConfigs`: for each `(xrdPath, helmPath)`
entry, skip non-string destinations, skip entries whose source path is
absent from the user spec (any `getValueByPath` error), and propagate
any `setValueByPath` error as fatal. -/
def applyMappings (userSpec : Obj) : Obj → Obj → Except MergeErr Obj
  | hv, [] => .ok hv
  | hv, (xrdPath, helmPathRaw) :: rest =>
    match helmPathRaw with
    | .str helmPath =>
      match getValueByPath userSpec xrdPath with
      | .ok value =>
        match setValueByPath hv helmPath value with
        | .ok hv' => applyMappings userSpec hv' rest
        | .error e => .error (.setFailed e)
      | .error _ => applyMappings userSpec hv rest
    | _ => applyMappings userSpec hv rest

/-- `mergeConfigs` from `merge.go`: deep-copy `defaultHelmValues`,
apply the mapping table, and return `{chart, helmValues}` plus
`connectionSecret` when present.  A missing `chart` key carries Go's
`nil` (`Value.null`). -/
def mergeConfigs (serviceConfig userSpec : Obj) : Except MergeErr Obj :=
  match lookupKey serviceConfig "defaultHelmValues" with
  | some (.map dflt) =>
    match lookupKey serviceConfig "mapping" with
    | some (.map mapping) =>
      match applyMappings userSpec (deepCopy dflt) mapping with
      | .ok hv =>
        let base : Obj :=
          [("chart", (lookupKey serviceConfig "chart").getD .null),
           ("helmValues", .map hv)]
        .ok (match lookupKey serviceConfig "connectionSecret" with
             | some cs => base ++ [("connectionSecret", cs)]
             | none => base)
      | .error e => .error e
    | _ => .error .mappingNotMap
  | _ => .error .defaultsNotMap

/-- `true` on `Except.error`. -/
def exceptIsErr {ε α : Type} : Except ε α → Bool
  | .error _ => true
  | .ok _ => false

/-- One step of `strings.ReplaceAll` with a non-empty pattern: scan
left to right, replacing each non-overlapping occurrence of `pat` by
`rep`.  `fuel` bounds the recursion; the caller supplies
`s.length` which always suffices, since each step consumes at least
one character of `s`. -/
def replAux (pat rep : List Char) : Nat → List Char → List Char
  | 0, s => s
  | _ + 1, [] => []
  | f + 1, c :: rest =>
    if pat.isPrefixOf (c :: rest) then
      rep ++ replAux pat rep f ((c :: rest).drop pat.length)
    else
      c :: replAux pat rep f rest

/-- `strings.ReplaceAll(s, pat, rep)`.  For an empty pattern Go
inserts `rep` before every character and once at the end; otherwise it
replaces every non-overlapping occurrence left to right. -/
def replaceAll (s pat rep : String) : String :=
  if pat.data.isEmpty then
    String.mk (rep.data ++ s.data.flatMap (fun c => c :: rep.data))
  else
    String.mk (replAux pat.data rep.data s.data.length s.data)

/-- `pat` occurs as a contiguous substring of `s`. -/
def hasSubstr (pat : List Char) : List Char → Bool
  | [] => pat.isEmpty
  | c :: rest => pat.isPrefixOf (c :: rest) || hasSubstr pat rest

/-- `fmt.Sprintf` of the placeholder pattern for variable `key`:
a dollar sign, an opening brace, the key, a closing brace. -/
def placeholder (key : String) : String :=
  String.mk ('$' :: '{' :: key.data ++ ['}'])

/-- `substituteVariables` from `resources.go`: fold `ReplaceAll` of
each variable's placeholder over the template.  The Go original
iterates a map in unspecified order; here `variables` is an
association list iterated in order (the claims settled below do not
depend on the order). -/
def substituteVariables (template : String) (vars : List (String × String)) : String :=
  vars.foldl (fun result kv => replaceAll result (placeholder kv.1) kv.2) template

/-- Boolean form of "the user spec supplies no value at any mapped
source path": every string-destination mapping entry's source lookup
fails on `userSpec`. -/
def mappingAllAbsent (userSpec : Obj) (mapping : Obj) : Bool :=
  mapping.all fun e =>
    match e.2 with
    | .str _ => exceptIsErr (getValueByPath userSpec e.1)
    | _ => true

/-! ## Base64 (`encoding/base64`) and the password lifecycle -/

/-- The URL-safe base64 alphabet (`base64.URLEncoding`), 64 characters. -/
def urlAlphabet : List Char :=
  "ABCDEFGHIJKLMNOPQRSTUVWXYZabcdefghijklmnopqrstuvwxyz0123456789-_".data

/-- Character `i` of the URL-safe alphabet (indices are always `< 64`
for byte inputs; the default is immaterial). -/
def urlChar (i : Nat) : Char := urlAlphabet.getD i 'A'

/-- `base64.URLEncoding.EncodeToString`: encode bytes in 3-byte
groups into 4 characters each; a trailing 2-byte group yields 3
characters plus one `'='`, a trailing single byte yields 2 characters
plus `"=="`. -/
def b64UrlEncode : List Nat → List Char
  | b1 :: b2 :: b3 :: rest =>
    urlChar (b1 / 4) :: urlChar ((b1 % 4) * 16 + b2 / 16) ::
    urlChar ((b2 % 16) * 4 + b3 / 64) :: urlChar (b3 % 64) :: b64UrlEncode rest
  | [b1, b2] =>
    [urlChar (b1 / 4), urlChar ((b1 % 4) * 16 + b2 / 16), urlChar ((b2 % 16) * 4), '=']
  | [b1] =>
    [urlChar (b1 / 4), urlChar ((b1 % 4) * 16), '=', '=']
  | [] => []

/-- Decode one character of the standard base64 alphabet
(`A`–`Z`, `a`–`z`, `0`–`9`, `+`, `/`) to its 6-bit value. -/
def b64StdDecodeChar (c : Char) : Option Nat :=
  if 'A' ≤ c ∧ c ≤ 'Z' then some (c.toNat - 65)
  else if 'a' ≤ c ∧ c ≤ 'z' then some (c.toNat - 97 + 26)
  else if '0' ≤ c ∧ c ≤ '9' then some (c.toNat - 48 + 52)
  else if c = '+' then some 62
  else if c = '/' then some 63
  else none

/-- Decode groups of four standard-base64 characters into bytes.
Padding (`=`) is accepted only in the final group, in the last one or
two positions; any other shape is a decode error.  (Go's non-strict
decoder ignores the unused low bits of a final partial group, as done
here.) -/
def b64StdDecodeGroups : List Char → Option (List Nat)
  | [] => some []
  | c1 :: c2 :: c3 :: c4 :: rest => do
    let i1 ← b64StdDecodeChar c1
    let i2 ← b64StdDecodeChar c2
    if c3 = '=' then
      if c4 = '=' ∧ rest = [] then some [i1 * 4 + i2 / 16] else none
    else do
      let i3 ← b64StdDecodeChar c3
      if c4 = '=' then
        if rest = [] then some [i1 * 4 + i2 / 16, (i2 % 16) * 16 + i3 / 4] else none
      else do
        let i4 ← b64StdDecodeChar c4
        let bytes ← b64StdDecodeGroups rest
        some ((i1 * 4 + i2 / 16) :: ((i2 % 16) * 16 + i3 / 4) :: ((i3 % 4) * 64 + i4) :: bytes)
  | _ => none

/-- `base64.StdEncoding.DecodeString`: newline characters are ignored,
then the input is decoded in padded four-character groups. -/
def b64StdDecode (s : String) : Option (List Nat) :=
  b64StdDecodeGroups (s.data.filter fun c => ¬(c = '\r' ∨ c = '\n'))

/-- Go's `string(bytes)` conversion of decoded secret bytes, with each
byte as one character (an injective embedding of byte strings). -/
def bytesToString (bs : List Nat) : String :=
  String.mk (bs.map Char.ofNat)

/-- `fieldpath.Paved.GetValue` restricted to the simple dotted field
paths used by the engine (`data.password` and friends): walk map
fields; any missing key or non-map intermediate is an error (`none`). -/
def pavedGetValue : Value → List String → Option Value
  | v, [] => some v
  | .map m, p :: rest =>
    match lookupKey m p with
    | some v' => pavedGetValue v' rest
    | none => none
  | _, _ :: _ => none

/-- The reuse branch of `getOrGeneratePassword`: if the observed
resources contain a `"secret"` descriptor whose `data.password` field
is a non-empty string that decodes as standard base64, the decoded
bytes are the existing password.  Every other case (no secret, no
field, non-string, empty, or invalid base64) falls through to
generation (`none`). -/
def tryExistingPassword (observedResources : Obj) : Option String :=
  match lookupKey observedResources "secret" with
  | some secretResource =>
    match pavedGetValue secretResource ["data", "password"] with
    | some (.str passwordBase64) =>
      if passwordBase64 = "" then none
      else
        match b64StdDecode passwordBase64 with
        | some passwordBytes => some (bytesToString passwordBytes)
        | none => none
    | _ => none
  | none => none

/-- `generateRandomPassword` from `resources.go`, with the
`crypto/rand` bytes passed explicitly (the Go function draws `length`
random bytes itself).  The result is the URL-base64 encoding truncated
to `length` characters; `none` models the slice-bounds panic of
`[:length]` when the encoding is shorter than `length` (proved
unreachable below for `length = randomBytes.length`). -/
def generateRandomPassword (length : Nat) (randomBytes : List Nat) : Option String :=
  let enc := b64UrlEncode randomBytes
  if length ≤ enc.length then some (String.mk (enc.take length)) else none

/-- `getOrGeneratePassword` from `resources.go`: reuse the observed
secret when possible, otherwise generate a fresh 32-character
password from the supplied random bytes.  (The Go function's `error`
result is always `nil`; the only conceivable runtime failure is the
truncation panic modeled by `Option`.) -/
def getOrGeneratePassword (observedResources : Obj) (randomBytes : List Nat) :
    Option String :=
  match tryExistingPassword observedResources with
  | some password => some password
  | none => generateRandomPassword 32 randomBytes

/-!
## Heap model

Claim C8 is about in-place mutation: `mergeConfigs` must never mutate
the `defaultHelmValues` tree of the service configuration, because
`deepCopy` allocates an independent copy.  A pure value embedding
cannot distinguish a correct deep copy from an aliasing bug, so the
merge pipeline is re-embedded here over an explicit store: Go maps
become heap cells addressed by `Nat`, map values become references
(`HVal.mref`), and `setValueByPath`'s in-place writes become store
updates (including the partial writes Go leaves behind when a set
fails mid-path).  Go slices are carried by value since none of the
embedded code mutates a slice in place.
-/

/-- A heap value: scalars, a reference to a map cell, or a sequence. -/
inductive HVal where
  | null
  | bool (b : Bool)
  | int (n : Int)
  | str (s : String)
  | mref (a : Nat)
  | arr (elems : List HVal)

/-- The heap: a partial map from addresses to map cells (each cell is
one `map[string]interface{}`), plus the next fresh address. -/
structure Store where
  find : Nat → Option (List (String × HVal))
  next : Nat

/-- Write (or create) the cell at address `a`. -/
def Store.write (σ : Store) (a : Nat) (m : List (String × HVal)) : Store :=
  ⟨fun x => if x = a then some m else σ.find x, σ.next⟩

/-- Allocate a fresh cell holding `m`; returns the new store and the
fresh address. -/
def Store.alloc (σ : Store) (m : List (String × HVal)) : Store × Nat :=
  (⟨fun x => if x = σ.next then some m else σ.find x, σ.next + 1⟩, σ.next)

mutual
/-- The addresses referenced directly by a heap value. -/
def hvalRefs : HVal → List Nat
  | .mref a => [a]
  | .arr es => hvalListRefs es
  | .null => []
  | .bool _ => []
  | .int _ => []
  | .str _ => []

/-- The addresses referenced directly by a list of heap values. -/
def hvalListRefs : List HVal → List Nat
  | [] => []
  | v :: rest => hvalRefs v ++ hvalListRefs rest
end

/-- The addresses referenced directly by a map cell's entries. -/
def entriesRefs : List (String × HVal) → List Nat
  | [] => []
  | (_, v) :: rest => hvalRefs v ++ entriesRefs rest

/-- Well-formed store: no cells at or beyond `next`, and every
reference stored in a cell is below `next`. -/
def WF (σ : Store) : Prop :=
  (∀ a, σ.next ≤ a → σ.find a = none) ∧
  (∀ a m, σ.find a = some m → ∀ r ∈ entriesRefs m, r < σ.next)

/-- `a` directly references `b`: the cell at `a` contains `b`. -/
def Edge (σ : Store) (a b : Nat) : Prop :=
  ∃ m, σ.find a = some m ∧ b ∈ entriesRefs m

/-- Heap reachability between addresses. -/
def Reach (σ : Store) : Nat → Nat → Prop :=
  Relation.ReflTransGen (Edge σ)

mutual
/-- Fueled readback of a heap value into a pure `Value`
(structural-equality observer for heap trees). -/
def readVal (σ : Store) : Nat → HVal → Option Value
  | 0, _ => none
  | _ + 1, .null => some .null
  | _ + 1, .bool b => some (.bool b)
  | _ + 1, .int n => some (.int n)
  | _ + 1, .str s => some (.str s)
  | f + 1, .arr es => (readElems σ f es).map .arr
  | f + 1, .mref a =>
    match σ.find a with
    | some m => (readEntries σ f m).map .map
    | none => none

/-- Fueled readback of a cell's entries. -/
def readEntries (σ : Store) : Nat → List (String × HVal) → Option (List (String × Value))
  | 0, _ => none
  | _ + 1, [] => some []
  | f + 1, (k, v) :: rest =>
    match readVal σ f v with
    | some pv =>
      match readEntries σ f rest with
      | some prest => some ((k, pv) :: prest)
      | none => none
    | none => none

/-- Fueled readback of a list of heap values. -/
def readElems (σ : Store) : Nat → List HVal → Option (List Value)
  | 0, _ => none
  | _ + 1, [] => some []
  | f + 1, v :: rest =>
    match readVal σ f v with
    | some pv =>
      match readElems σ f rest with
      | some prest => some (pv :: prest)
      | none => none
    | none => none
end

mutual
/-- Heap `deepCopy` of a single value (the `switch` of `merge.go`):
scalars are copied by value, maps are recursively copied into freshly
allocated cells, slices are recursively copied elementwise.  `fuel`
bounds the recursion (a model artifact; `none` never occurs on
well-formed acyclic inputs with enough fuel). -/
def dcVal : Nat → Store → HVal → Option (Store × HVal)
  | 0, _, _ => none
  | _ + 1, σ, .null => some (σ, .null)
  | _ + 1, σ, .bool b => some (σ, .bool b)
  | _ + 1, σ, .int n => some (σ, .int n)
  | _ + 1, σ, .str s => some (σ, .str s)
  | f + 1, σ, .arr es =>
    match dcList f σ es with
    | some (σ', es') => some (σ', .arr es')
    | none => none
  | f + 1, σ, .mref a =>
    match σ.find a with
    | some m =>
      match dcEntries f σ m with
      | some (σ', m') =>
        let an := σ'.alloc m'
        some (an.1, .mref an.2)
      | none => none
    | none => none

/-- Heap `deepCopy` of a cell's entries, threading the store. -/
def dcEntries : Nat → Store → List (String × HVal) → Option (Store × List (String × HVal))
  | 0, _, _ => none
  | _ + 1, σ, [] => some (σ, [])
  | f + 1, σ, (k, v) :: rest =>
    match dcVal f σ v with
    | some (σ', v') =>
      match dcEntries f σ' rest with
      | some (σ'', rest') => some (σ'', (k, v') :: rest')
      | none => none
    | none => none

/-- Heap `deepCopySlice`, threading the store. -/
def dcList : Nat → Store → List HVal → Option (Store × List HVal)
  | 0, _, _ => none
  | _ + 1, σ, [] => some (σ, [])
  | f + 1, σ, v :: rest =>
    match dcVal f σ v with
    | some (σ', v') =>
      match dcList f σ' rest with
      | some (σ'', rest') => some (σ'', v' :: rest')
      | none => none
    | none => none
end

/-- Heap `getValueByPath` traversal loop (read-only). -/
def getGoH (σ : Store) : HVal → List String → Except PathErr HVal
  | v, [] => .ok v
  | v, p :: rest =>
    match v with
    | .mref a =>
      match σ.find a with
      | some m =>
        match lookupKey m p with
        | some v' => getGoH σ v' rest
        | none => .error .notFound
      | none => .error .typeMismatch
    | _ => .error .typeMismatch

/-- Heap `getValueByPath`: split the path, skip a leading `"spec"`
segment, walk from the user-spec root cell. -/
def getValueByPathH (σ : Store) (root : Nat) (path : String) : Except PathErr HVal :=
  let parts := splitDot path
  let parts :=
    match parts with
    | p :: rest => if p = "spec" then rest else p :: rest
    | [] => []
  getGoH σ (.mref root) parts

/-- Heap `setValueByPath` navigation loop: mutates cells in place,
creating fresh intermediate cells for missing keys.  Returns the
(possibly partially mutated, as in Go) store together with an optional
error. -/
def setGoH (σ : Store) (a : Nat) : List String → HVal → Store × Option PathErr
  | [], _ => (σ, some .invalidPath)
  | [last], v =>
    match σ.find a with
    | some m => (σ.write a (setKey m last v), none)
    | none => (σ, some .typeMismatch)
  | p :: q :: rest, v =>
    match σ.find a with
    | none => (σ, some .typeMismatch)
    | some m =>
      match lookupKey m p with
      | some (.mref a') => setGoH σ a' (q :: rest) v
      | some _ => (σ, some .typeMismatch)
      | none =>
        let an := σ.alloc []
        setGoH (an.1.write a (setKey m p (.mref an.2))) an.2 (q :: rest) v

/-- Heap `setValueByPath`, with the (dead) empty-parts guard. -/
def setValueByPathH (σ : Store) (a : Nat) (path : String) (v : HVal) :
    Store × Option PathErr :=
  let parts := splitDot path
  if parts.isEmpty then (σ, some .invalidPath) else setGoH σ a parts v

/-- The mapping loop of heap `mergeConfigs`: reads each mapped value
from the user spec, writes it into the helm-values copy in place,
skipping read failures and stopping at the first write failure. -/
def mergeLoopH (usA hvA : Nat) : Store → List (String × HVal) → Store × Option PathErr
  | σ, [] => (σ, none)
  | σ, (xrdPath, helmPathRaw) :: rest =>
    match helmPathRaw with
    | .str helmPath =>
      match getValueByPathH σ usA xrdPath with
      | .ok value =>
        match setValueByPathH σ hvA helmPath value with
        | (σ', none) => mergeLoopH usA hvA σ' rest
        | (σ', some e) => (σ', some e)
      | .error _ => mergeLoopH usA hvA σ rest
    | _ => mergeLoopH usA hvA σ rest

/-- Heap `mergeConfigs`: deep-copy the `defaultHelmValues` cell, run
the mapping loop against the copy, then allocate the result map
carrying the original `chart` and `connectionSecret` values and a
reference to the merged copy.  `none` is fuel exhaustion or a dangling
reference (model artifacts only); otherwise the Go result/error is
returned together with the final store — also on failure, where Go
abandons the partially mutated copy. -/
def mergeConfigsH (fuel : Nat) (σ : Store) (scA usA : Nat) :
    Option ((Except MergeErr Nat) × Store) :=
  match σ.find scA with
  | none => some (.error .defaultsNotMap, σ)
  | some scm =>
    match lookupKey scm "defaultHelmValues" with
    | some (.mref dA) =>
      match σ.find dA with
      | none => none
      | some dm =>
        match dcEntries fuel σ dm with
        | none => none
        | some (σ1, copied) =>
          let an := σ1.alloc copied
          match lookupKey scm "mapping" with
          | some (.mref mA) =>
            match an.1.find mA with
            | none => none
            | some mapping =>
              match mergeLoopH usA an.2 an.1 mapping with
              | (σ3, some e) => some (.error (.setFailed e), σ3)
              | (σ3, none) =>
                match σ3.find scA with
                | none => none
                | some scm' =>
                  let base : List (String × HVal) :=
                    [("chart", (lookupKey scm' "chart").getD .null),
                     ("helmValues", .mref an.2)]
                  let entries :=
                    match lookupKey scm' "connectionSecret" with
                    | some cs => base ++ [("connectionSecret", cs)]
                    | none => base
                  some (.ok (σ3.alloc entries).2, (σ3.alloc entries).1)
          | _ => some (.error .mappingNotMap, an.1)
    | _ => some (.error .defaultsNotMap, σ)

/-- Membership in the "merge working set": addresses reachable from
the user-spec root in the initial store, or freshly allocated since. -/
def UMem (σ₀ : Store) (usA x : Nat) : Prop :=
  Reach σ₀ usA x ∨ σ₀.next ≤ x

/-- The invariant maintained by the merge pipeline over the store:
the next pointer only grows, the store stays well-formed, every cell
reachable from the service-config root in the initial store is
unchanged, and the working set is closed under current heap edges. -/
def MergeInv (σ₀ : Store) (scA usA : Nat) (σ : Store) : Prop :=
  σ₀.next ≤ σ.next ∧
  WF σ ∧
  (∀ x, Reach σ₀ scA x → σ.find x = σ₀.find x) ∧
  (∀ x y, UMem σ₀ usA x → Edge σ x y → UMem σ₀ usA y)

/-- Specification of a deep-copy step from `σ` to `σ'` producing a
value/cell-list with direct references `R`: the next pointer grows,
cells outside the newly allocated window are untouched, the produced
references lie inside the window, and (on well-formed input) the store
stays well-formed with every window cell referencing only window
addresses. -/
def DCOK (σ σ' : Store) (R : List Nat) : Prop :=
  σ.next ≤ σ'.next ∧
  (∀ x, x < σ.next ∨ σ'.next ≤ x → σ'.find x = σ.find x) ∧
  (∀ r ∈ R, σ.next ≤ r ∧ r < σ'.next) ∧
  (WF σ → WF σ' ∧
    ∀ a m2, σ.next ≤ a → σ'.find a = some m2 →
      ∀ r ∈ entriesRefs m2, σ.next ≤ r ∧ r < σ'.next)

/-- Concrete store for the C8 witness: address 0 is the service
config (defaults at 1, mapping at 2), address 3 is the user spec. -/
def witnessStore : Store :=
  ⟨fun a =>
    if a = 0 then
      some [("defaultHelmValues", .mref 1), ("mapping", .mref 2),
            ("chart", .str "redis"), ("connectionSecret", .str "tpl")]
    else if a = 1 then some [("replicas", .int 1)]
    else if a = 2 then some [("spec.replicas", .str "replicaCount")]
    else if a = 3 then some []
    else none,
   4⟩

/-! ## Helper lemmas -/

theorem splitDot_go_ne_nil (cs acc : List Char) : splitDot.go cs acc ≠ [] := by
  induction cs generalizing acc with
  | nil => simp [splitDot.go]
  | cons c rest ih =>
    simp only [splitDot.go]
    split
    · simp
    · exact ih _

theorem splitDot_ne_nil (s : String) : splitDot s ≠ [] :=
  splitDot_go_ne_nil s.data []

theorem lookupKey_setKey_self (m : Obj) (k : String) (v : Value) :
    lookupKey (setKey m k v) k = some v := by
  induction m with
  | nil => simp [setKey, lookupKey]
  | cons kv rest ih =>
    obtain ⟨k', v'⟩ := kv
    by_cases h : k' = k
    · simp [setKey, lookupKey, h]
    · simp [setKey, lookupKey, h, ih]

theorem getGo_setGo (parts : List String) :
    ∀ (m m' : Obj) (v : Value), setGo m parts v = .ok m' → getGo (.map m') parts = .ok v := by
  induction parts with
  | nil => intro m m' v hset; simp [setGo] at hset
  | cons p rest ih =>
    intro m m' v hset
    cases rest with
    | nil =>
      simp only [setGo, Except.ok.injEq] at hset
      subst hset
      simp [getGo, lookupKey_setKey_self]
    | cons q rest' =>
      simp only [setGo] at hset
      split at hset
      · split at hset
        · rename_i nm _hget nm' hs
          simp only [Except.ok.injEq] at hset
          subst hset
          simp only [getGo, lookupKey_setKey_self]
          exact ih _ _ _ hs
        · exact absurd hset (by simp)
      · exact absurd hset (by simp)

theorem applyMappings_all_absent (us : Obj) (mp : Obj) (hv : Obj)
    (h : mappingAllAbsent us mp = true) : applyMappings us hv mp = .ok hv := by
  induction mp with
  | nil => simp [applyMappings]
  | cons e rest ih =>
    obtain ⟨p, dest⟩ := e
    simp only [mappingAllAbsent, List.all_cons, Bool.and_eq_true] at h
    obtain ⟨hhead, hrest⟩ := h
    cases dest with
    | str s =>
      simp only at hhead
      cases hget : getValueByPath us p with
      | ok v => rw [hget] at hhead; simp [exceptIsErr] at hhead
      | error e' =>
        simp only [applyMappings, hget]
        exact ih hrest
    | null => simp only [applyMappings]; exact ih hrest
    | bool b => simp only [applyMappings]; exact ih hrest
    | int n => simp only [applyMappings]; exact ih hrest
    | map m => simp only [applyMappings]; exact ih hrest
    | arr a => simp only [applyMappings]; exact ih hrest

theorem replAux_not_contained (pat rep s : List Char) (h : hasSubstr pat s = false) :
    ∀ f, replAux pat rep f s = s := by
  induction s with
  | nil => intro f; cases f <;> rfl
  | cons c rest ih =>
    intro f
    simp only [hasSubstr, Bool.or_eq_false_iff] at h
    cases f with
    | zero => rfl
    | succ f' =>
      simp only [replAux, h.1, Bool.false_eq_true, if_false]
      rw [ih h.2]

theorem replaceAll_not_contained (s pat rep : String)
    (h : hasSubstr pat.data s.data = false) : replaceAll s pat rep = s := by
  have hpat : pat.data.isEmpty = false := by
    cases hp : pat.data with
    | nil =>
      cases hs : s.data with
      | nil => rw [hp, hs] at h; simp [hasSubstr, List.isEmpty] at h
      | cons c rest =>
        rw [hp, hs] at h
        simp [hasSubstr, List.isPrefixOf] at h
    | cons c rest => simp [List.isEmpty]
  simp only [replaceAll, hpat, Bool.false_eq_true, if_false]
  rw [replAux_not_contained _ _ _ h]

theorem b64UrlEncode_length (bs : List Nat) :
    (b64UrlEncode bs).length = 4 * ((bs.length + 2) / 3) := by
  induction bs using b64UrlEncode.induct with
  | case1 b1 b2 b3 rest ih =>
    simp only [b64UrlEncode, List.length_cons, List.length_append, ih]
    omega
  | case2 b1 b2 => simp [b64UrlEncode]
  | case3 b1 => simp [b64UrlEncode]
  | case4 => rfl

theorem urlChar_mem (i : Nat) : urlChar i ∈ urlAlphabet := by
  unfold urlChar
  rcases hg : urlAlphabet[i]? with _ | c
  · rw [List.getD_eq_getElem?_getD, hg]; decide
  · rw [List.getD_eq_getElem?_getD, hg]
    exact List.getElem?_mem hg

theorem b64UrlEncode_take_mem (bs : List Nat) :
    ∀ c ∈ (b64UrlEncode bs).take (4 * (bs.length / 3)), c ∈ urlAlphabet := by
  induction bs using b64UrlEncode.induct with
  | case1 b1 b2 b3 rest ih =>
    intro c hc
    have hlen : (b1 :: b2 :: b3 :: rest).length / 3 = rest.length / 3 + 1 := by
      simp only [List.length_cons]
      omega
    rw [hlen] at hc
    have h4 : 4 * (rest.length / 3 + 1) = 4 * (rest.length / 3) + 1 + 1 + 1 + 1 := by omega
    rw [h4] at hc
    simp only [b64UrlEncode, List.take_succ_cons, List.mem_cons] at hc
    rcases hc with h | h | h | h | h
    · rw [h]; exact urlChar_mem _
    · rw [h]; exact urlChar_mem _
    · rw [h]; exact urlChar_mem _
    · rw [h]; exact urlChar_mem _
    · exact ih c h
  | case2 b1 b2 =>
    intro c hc
    have h0 : 4 * ([b1, b2].length / 3) = 0 := by simp
    rw [h0] at hc
    simp at hc
  | case3 b1 =>
    intro c hc
    have h0 : 4 * ([b1].length / 3) = 0 := by simp
    rw [h0] at hc
    simp at hc
  | case4 => intro c hc; simp [b64UrlEncode] at hc

theorem mem_take_of_le {α : Type} (l : List α) (n m : Nat) (h : n ≤ m) :
    ∀ x ∈ l.take n, x ∈ l.take m := by
  intro x hx
  have : l.take n = (l.take m).take n := by
    rw [List.take_take, Nat.min_eq_left h]
  rw [this] at hx
  exact List.take_subset _ _ hx

theorem substituteVariables_untouched (template : String) (vars : List (String × String))
    (h : ∀ kv ∈ vars, hasSubstr (placeholder kv.1).data template.data = false) :
    substituteVariables template vars = template := by
  induction vars with
  | nil => rfl
  | cons kv rest ih =>
    simp only [substituteVariables, List.foldl_cons]
    rw [replaceAll_not_contained _ _ _ (h kv (by simp))]
    exact ih fun kv' hm => h kv' (by simp [hm])

/-! ### Heap-model lemmas -/

theorem find_write (σ : Store) (a : Nat) (m : List (String × HVal)) (x : Nat) :
    (σ.write a m).find x = if x = a then some m else σ.find x := rfl

theorem next_write (σ : Store) (a : Nat) (m : List (String × HVal)) :
    (σ.write a m).next = σ.next := rfl

theorem find_alloc (σ : Store) (m : List (String × HVal)) (x : Nat) :
    (σ.alloc m).1.find x = if x = σ.next then some m else σ.find x := rfl

theorem next_alloc (σ : Store) (m : List (String × HVal)) :
    (σ.alloc m).1.next = σ.next + 1 := rfl

theorem addr_alloc (σ : Store) (m : List (String × HVal)) :
    (σ.alloc m).2 = σ.next := rfl

theorem lookupKey_refs {m : List (String × HVal)} {k : String} {v : HVal}
    (h : lookupKey m k = some v) : ∀ r ∈ hvalRefs v, r ∈ entriesRefs m := by
  induction m with
  | nil => simp [lookupKey] at h
  | cons kv rest ih =>
    obtain ⟨k', v'⟩ := kv
    intro r hr
    simp only [lookupKey] at h
    by_cases hk : k' = k
    · rw [if_pos hk] at h
      cases h
      simp only [entriesRefs, List.mem_append]
      exact Or.inl hr
    · rw [if_neg hk] at h
      simp only [entriesRefs, List.mem_append]
      exact Or.inr (ih h r hr)

theorem setKey_refs {m : List (String × HVal)} {k : String} {v : HVal} :
    ∀ r ∈ entriesRefs (setKey m k v), r ∈ entriesRefs m ∨ r ∈ hvalRefs v := by
  induction m with
  | nil =>
    intro r hr
    simp only [setKey, entriesRefs, List.append_nil] at hr
    exact Or.inr hr
  | cons kv rest ih =>
    obtain ⟨k', v'⟩ := kv
    intro r hr
    simp only [setKey] at hr
    by_cases hk : k' = k
    · rw [if_pos hk] at hr
      simp only [entriesRefs, List.mem_append] at hr ⊢
      rcases hr with h | h
      · exact Or.inr h
      · exact Or.inl (Or.inr h)
    · rw [if_neg hk] at hr
      simp only [entriesRefs, List.mem_append] at hr ⊢
      rcases hr with h | h
      · exact Or.inl (Or.inl h)
      · rcases ih r h with h' | h'
        · exact Or.inl (Or.inr h')
        · exact Or.inr h'

theorem reach_closed {σ : Store} {S : Nat → Prop} {a x : Nat}
    (hcl : ∀ u, S u → ∀ y, Edge σ u y → S y)
    (hr : Reach σ a x) (ha : S a) : S x := by
  induction hr using Relation.ReflTransGen.head_induction_on with
  | refl => exact ha
  | head hedge _ ih => exact ih (hcl _ ha _ hedge)

theorem reach_lt_next {σ : Store} (hwf : WF σ) {a x : Nat} (ha : a < σ.next)
    (hr : Reach σ a x) : x < σ.next := by
  refine reach_closed (S := fun u => u < σ.next) ?_ hr ha
  intro u _ y hedge
  obtain ⟨m, hm, hy⟩ := hedge
  exact hwf.2 u m hm y hy

theorem reach_head {σ : Store} {a b x : Nat} (hedge : Edge σ a b)
    (hr : Reach σ b x) : Reach σ a x :=
  Relation.ReflTransGen.head hedge hr

theorem DCOK_refl (σ : Store) : DCOK σ σ [] := by
  refine ⟨Nat.le_refl _, fun _ _ => rfl, by simp, fun hwf => ⟨hwf, ?_⟩⟩
  intro a m2 ha hfind
  rw [hwf.1 a ha] at hfind
  cases hfind

theorem DCOK_comp {σ σ₁ σ₂ : Store} {R₁ R₂ : List Nat}
    (h1 : DCOK σ σ₁ R₁) (h2 : DCOK σ₁ σ₂ R₂) : DCOK σ σ₂ (R₁ ++ R₂) := by
  obtain ⟨hn1, hf1, hr1, hw1⟩ := h1
  obtain ⟨hn2, hf2, hr2, hw2⟩ := h2
  refine ⟨Nat.le_trans hn1 hn2, ?_, ?_, ?_⟩
  · intro x hx
    have hx1 : x < σ₁.next ∨ σ₂.next ≤ x := by
      rcases hx with h | h
      · exact Or.inl (Nat.lt_of_lt_of_le h hn1)
      · exact Or.inr h
    have hx2 : x < σ.next ∨ σ₁.next ≤ x := by
      rcases hx with h | h
      · exact Or.inl h
      · exact Or.inr (Nat.le_trans hn2 h)
    rw [hf2 x hx1, hf1 x hx2]
  · intro r hr
    rcases List.mem_append.mp hr with h | h
    · obtain ⟨hlo, hhi⟩ := hr1 r h
      exact ⟨hlo, Nat.lt_of_lt_of_le hhi hn2⟩
    · obtain ⟨hlo, hhi⟩ := hr2 r h
      exact ⟨Nat.le_trans hn1 hlo, hhi⟩
  · intro hwf
    obtain ⟨hwf1, hc1⟩ := hw1 hwf
    obtain ⟨hwf2, hc2⟩ := hw2 hwf1
    refine ⟨hwf2, ?_⟩
    intro a m2 ha hfind r hrm
    by_cases hcase : a < σ₁.next
    · have : σ₂.find a = σ₁.find a := hf2 a (Or.inl hcase)
      rw [this] at hfind
      obtain ⟨hlo, hhi⟩ := hc1 a m2 ha hfind r hrm
      exact ⟨hlo, Nat.lt_of_lt_of_le hhi hn2⟩
    · obtain ⟨hlo, hhi⟩ := hc2 a m2 (Nat.le_of_not_lt hcase) hfind r hrm
      exact ⟨Nat.le_trans hn1 hlo, hhi⟩

theorem DCOK_alloc {σ σ' : Store} {m' : List (String × HVal)}
    (h : DCOK σ σ' (entriesRefs m')) : DCOK σ (σ'.alloc m').1 [(σ'.alloc m').2] := by
  obtain ⟨hn, hf, hr, hw⟩ := h
  refine ⟨by rw [next_alloc]; omega, ?_, ?_, ?_⟩
  · intro x hx
    rw [next_alloc] at hx
    have hxne : ¬(x = σ'.next) := by
      rcases hx with h | h
      · omega
      · omega
    rw [find_alloc, if_neg hxne]
    refine hf x ?_
    rcases hx with h | h
    · exact Or.inl h
    · exact Or.inr (by omega)
  · intro r hrm
    rw [addr_alloc] at hrm
    rcases List.mem_singleton.mp hrm with rfl
    rw [next_alloc]
    omega
  · intro hwf
    obtain ⟨hwf', hc⟩ := hw hwf
    constructor
    · constructor
      · intro a ha
        rw [next_alloc] at ha
        rw [find_alloc, if_neg (by omega)]
        exact hwf'.1 a (by omega)
      · intro a mc hfind r hrm
        rw [find_alloc] at hfind
        rw [next_alloc]
        by_cases hcase : a = σ'.next
        · rw [if_pos hcase] at hfind
          cases hfind
          have := hr r hrm
          omega
        · rw [if_neg hcase] at hfind
          have := hwf'.2 a mc hfind r hrm
          omega
    · intro a m2 ha hfind r hrm
      rw [find_alloc] at hfind
      rw [next_alloc]
      by_cases hcase : a = σ'.next
      · rw [if_pos hcase] at hfind
        cases hfind
        have := hr r hrm
        omega
      · rw [if_neg hcase] at hfind
        have := hc a m2 ha hfind r hrm
        omega

theorem dc_spec (f : Nat) :
    (∀ σ v σ' v', dcVal f σ v = some (σ', v') → DCOK σ σ' (hvalRefs v')) ∧
    (∀ σ m σ' m', dcEntries f σ m = some (σ', m') → DCOK σ σ' (entriesRefs m')) ∧
    (∀ σ es σ' es', dcList f σ es = some (σ', es') → DCOK σ σ' (hvalListRefs es')) := by
  induction f with
  | zero =>
    refine ⟨?_, ?_, ?_⟩ <;> intro σ a σ' b h <;> cases h
  | succ f ih =>
    refine ⟨?_, ?_, ?_⟩
    · intro σ v σ' v' h
      cases v with
      | null => cases h; exact DCOK_refl σ
      | bool b => cases h; exact DCOK_refl σ
      | int n => cases h; exact DCOK_refl σ
      | str s => cases h; exact DCOK_refl σ
      | arr es =>
        simp only [dcVal] at h
        cases hl : dcList f σ es with
        | none => rw [hl] at h; cases h
        | some p =>
          rw [hl] at h
          obtain ⟨σ'', es'⟩ := p
          cases h
          exact ih.2.2 σ es _ _ hl
      | mref a =>
        simp only [dcVal] at h
        cases hm : σ.find a with
        | none => rw [hm] at h; cases h
        | some m =>
          rw [hm] at h
          dsimp only at h
          cases he : dcEntries f σ m with
          | none => rw [he] at h; cases h
          | some p =>
            rw [he] at h
            obtain ⟨σ'', m'⟩ := p
            simp only at h
            cases h
            exact DCOK_alloc (ih.2.1 σ m _ _ he)
    · intro σ m σ' m' h
      cases m with
      | nil => cases h; exact DCOK_refl σ
      | cons kv rest =>
        obtain ⟨k, v⟩ := kv
        simp only [dcEntries] at h
        cases hv : dcVal f σ v with
        | none => rw [hv] at h; cases h
        | some p =>
          rw [hv] at h
          obtain ⟨σ₁, v'⟩ := p
          dsimp only at h
          cases hrest : dcEntries f σ₁ rest with
          | none => rw [hrest] at h; cases h
          | some q =>
            rw [hrest] at h
            obtain ⟨σ₂, rest'⟩ := q
            simp only at h
            cases h
            exact DCOK_comp (ih.1 σ v _ _ hv) (ih.2.1 σ₁ rest _ _ hrest)
    · intro σ es σ' es' h
      cases es with
      | nil => cases h; exact DCOK_refl σ
      | cons v rest =>
        simp only [dcList] at h
        cases hv : dcVal f σ v with
        | none => rw [hv] at h; cases h
        | some p =>
          rw [hv] at h
          obtain ⟨σ₁, v'⟩ := p
          dsimp only at h
          cases hrest : dcList f σ₁ rest with
          | none => rw [hrest] at h; cases h
          | some q =>
            rw [hrest] at h
            obtain ⟨σ₂, rest'⟩ := q
            simp only at h
            cases h
            exact DCOK_comp (ih.1 σ v _ _ hv) (ih.2.2 σ₁ rest _ _ hrest)

theorem WF_write_setKey {σ : Store} {a : Nat} {m : List (String × HVal)} {k : String}
    {w : HVal} (hwf : WF σ) (hm : σ.find a = some m)
    (hw : ∀ r ∈ hvalRefs w, r < σ.next) : WF (σ.write a (setKey m k w)) := by
  have ha : a < σ.next := by
    by_contra hcon
    rw [hwf.1 a (Nat.le_of_not_lt hcon)] at hm
    cases hm
  constructor
  · intro x hx
    rw [next_write] at hx
    rw [find_write, if_neg (by omega)]
    exact hwf.1 x hx
  · intro x m2 hfind r hrm
    rw [find_write] at hfind
    rw [next_write]
    by_cases hcase : x = a
    · rw [if_pos hcase] at hfind
      cases hfind
      rcases setKey_refs r hrm with h | h
      · exact hwf.2 a m hm r h
      · exact hw r h
    · rw [if_neg hcase] at hfind
      exact hwf.2 x m2 hfind r hrm

theorem setGoH_spec (parts : List String) :
    ∀ (σ : Store) (a : Nat) (v : HVal) (σ' : Store) (e : Option PathErr),
      setGoH σ a parts v = (σ', e) →
      WF σ → (∀ r ∈ hvalRefs v, r < σ.next) →
      σ.next ≤ σ'.next ∧ WF σ' ∧
      (∀ x y, Edge σ' x y → Edge σ x y ∨ y ∈ hvalRefs v ∨ σ.next ≤ y) ∧
      (∀ x, x < σ.next → ¬ Reach σ a x → σ'.find x = σ.find x) := by
  induction parts with
  | nil =>
    intro σ a v σ' e h hwf hv
    simp only [setGoH] at h
    cases h
    exact ⟨Nat.le_refl _, hwf, fun x y he => Or.inl he, fun x _ _ => rfl⟩
  | cons p rest ih =>
    intro σ a v σ' e h hwf hv
    cases rest with
    | nil =>
      simp only [setGoH] at h
      cases hm : σ.find a with
      | none =>
        rw [hm] at h
        cases h
        exact ⟨Nat.le_refl _, hwf, fun x y he => Or.inl he, fun x _ _ => rfl⟩
      | some m =>
        rw [hm] at h
        cases h
        have ha : a < σ.next := by
          by_contra hcon
          rw [hwf.1 a (Nat.le_of_not_lt hcon)] at hm
          cases hm
        refine ⟨Nat.le_refl _, WF_write_setKey hwf hm hv, ?_, ?_⟩
        · intro x y he
          obtain ⟨m2, hfind, hy⟩ := he
          rw [find_write] at hfind
          by_cases hcase : x = a
          · rw [if_pos hcase] at hfind
            cases hfind
            rcases setKey_refs y hy with hh | hh
            · exact Or.inl ⟨m, by rw [hcase]; exact hm, hh⟩
            · exact Or.inr (Or.inl hh)
          · rw [if_neg hcase] at hfind
            exact Or.inl ⟨m2, hfind, hy⟩
        · intro x _ hnr
          have hxa : ¬(x = a) := fun hh => hnr (hh ▸ Relation.ReflTransGen.refl)
          rw [find_write, if_neg hxa]
    | cons q rest' =>
      simp only [setGoH] at h
      cases hm : σ.find a with
      | none =>
        rw [hm] at h
        cases h
        exact ⟨Nat.le_refl _, hwf, fun x y he => Or.inl he, fun x _ _ => rfl⟩
      | some m =>
        rw [hm] at h
        dsimp only at h
        have ha : a < σ.next := by
          by_contra hcon
          rw [hwf.1 a (Nat.le_of_not_lt hcon)] at hm
          cases hm
        cases hlk : lookupKey m p with
        | some w =>
          rw [hlk] at h
          cases w with
          | mref a' =>
            have hedge : Edge σ a a' :=
              ⟨m, hm, lookupKey_refs hlk a' (by simp [hvalRefs])⟩
            obtain ⟨hn, hwf', hE, hU⟩ := ih σ a' v σ' e h hwf hv
            refine ⟨hn, hwf', hE, ?_⟩
            intro x hx hnr
            exact hU x hx fun hr => hnr (reach_head hedge hr)
          | null => cases h; exact ⟨Nat.le_refl _, hwf, fun x y he => Or.inl he, fun x _ _ => rfl⟩
          | bool b => cases h; exact ⟨Nat.le_refl _, hwf, fun x y he => Or.inl he, fun x _ _ => rfl⟩
          | int n => cases h; exact ⟨Nat.le_refl _, hwf, fun x y he => Or.inl he, fun x _ _ => rfl⟩
          | str s => cases h; exact ⟨Nat.le_refl _, hwf, fun x y he => Or.inl he, fun x _ _ => rfl⟩
          | arr es => cases h; exact ⟨Nat.le_refl _, hwf, fun x y he => Or.inl he, fun x _ _ => rfl⟩
        | none =>
          rw [hlk] at h
          dsimp only at h
          -- `σ1` allocates the fresh empty cell at `na = σ.next`,
          -- `σ2` links it into the cell at `a`, and the recursion
          -- continues from the fresh cell.
          set σ1 := (σ.alloc []).1 with hσ1
          set na := (σ.alloc []).2 with hna
          set σ2 := σ1.write a (setKey m p (.mref na)) with hσ2
          have hna' : na = σ.next := rfl
          have hanena : ¬(a = na) := by omega
          have hσ2next : σ2.next = σ.next + 1 := rfl
          have hσ2find : ∀ x, σ2.find x =
              if x = a then some (setKey m p (.mref na))
              else if x = na then some [] else σ.find x := by
            intro x
            rw [hσ2, find_write]
            by_cases hxa : x = a
            · rw [if_pos hxa, if_pos hxa]
            · rw [if_neg hxa, if_neg hxa, hσ1, find_alloc, hna']
          have hwf2 : WF σ2 := by
            constructor
            · intro x hx
              rw [hσ2next] at hx
              rw [hσ2find, if_neg (by omega), if_neg (by omega)]
              exact hwf.1 x (by omega)
            · intro x m2 hfind r hrm
              rw [hσ2find] at hfind
              rw [hσ2next]
              by_cases hxa : x = a
              · rw [if_pos hxa] at hfind
                cases hfind
                rcases setKey_refs r hrm with hh | hh
                · have := hwf.2 a m hm r hh
                  omega
                · simp only [hvalRefs, List.mem_singleton] at hh
                  omega
              · rw [if_neg hxa] at hfind
                by_cases hxn : x = na
                · rw [if_pos hxn] at hfind
                  cases hfind
                  simp [entriesRefs] at hrm
                · rw [if_neg hxn] at hfind
                  have := hwf.2 x m2 hfind r hrm
                  omega
          have hv2 : ∀ r ∈ hvalRefs v, r < σ2.next := by
            intro r hr
            rw [hσ2next]
            have := hv r hr
            omega
          obtain ⟨hn, hwf', hE, hU⟩ := ih σ2 na v σ' e h hwf2 hv2
          refine ⟨by omega, hwf', ?_, ?_⟩
          · intro x y he
            rcases hE x y he with hh | hh | hh
            · obtain ⟨m2, hfind, hy⟩ := hh
              rw [hσ2find] at hfind
              by_cases hxa : x = a
              · rw [if_pos hxa] at hfind
                cases hfind
                rcases setKey_refs y hy with hg | hg
                · exact Or.inl ⟨m, by rw [hxa]; exact hm, hg⟩
                · simp only [hvalRefs, List.mem_singleton] at hg
                  exact Or.inr (Or.inr (by omega))
              · rw [if_neg hxa] at hfind
                by_cases hxn : x = na
                · rw [if_pos hxn] at hfind
                  cases hfind
                  simp [entriesRefs] at hy
                · rw [if_neg hxn] at hfind
                  exact Or.inl ⟨m2, hfind, hy⟩
            · exact Or.inr (Or.inl hh)
            · rw [hσ2next] at hh
              exact Or.inr (Or.inr (by omega))
          · intro x hx hnr
            have hxa : ¬(x = a) := fun hh => hnr (hh ▸ Relation.ReflTransGen.refl)
            have hxna : ¬(x = na) := by omega
            have hreach2 : ¬ Reach σ2 na x := by
              intro hr
              have : x = na := by
                refine reach_closed (S := fun u => u = na) ?_ hr rfl
                intro u hu y he
                obtain ⟨m2, hfind, hy⟩ := he
                rw [hσ2find, if_neg (by omega), if_pos hu] at hfind
                cases hfind
                simp [entriesRefs] at hy
              exact hxna this
            rw [hU x (by omega) hreach2, hσ2find, if_neg hxa, if_neg hxna]

theorem umem_reach {σ₀ σ : Store} {usA x y : Nat}
    (hcl : ∀ u w, UMem σ₀ usA u → Edge σ u w → UMem σ₀ usA w)
    (hx : UMem σ₀ usA x) (hr : Reach σ x y) : UMem σ₀ usA y :=
  reach_closed (fun u hu w he => hcl u w hu he) hr hx

theorem getGoH_refs {σ₀ σ : Store} {usA : Nat} (parts : List String)
    (hwf : WF σ)
    (hcl : ∀ u w, UMem σ₀ usA u → Edge σ u w → UMem σ₀ usA w) :
    ∀ (w v : HVal), getGoH σ w parts = .ok v →
      (∀ r ∈ hvalRefs w, UMem σ₀ usA r ∧ r < σ.next) →
      ∀ r ∈ hvalRefs v, UMem σ₀ usA r ∧ r < σ.next := by
  induction parts with
  | nil =>
    intro w v h hw
    simp only [getGoH] at h
    cases h
    exact hw
  | cons p rest ih =>
    intro w v h hw
    simp only [getGoH] at h
    cases w with
    | mref a =>
      dsimp only at h
      cases hm : σ.find a with
      | none => rw [hm] at h; cases h
      | some m =>
        rw [hm] at h
        dsimp only at h
        cases hlk : lookupKey m p with
        | none => rw [hlk] at h; cases h
        | some v' =>
          rw [hlk] at h
          have ha : UMem σ₀ usA a ∧ a < σ.next := hw a (by simp [hvalRefs])
          refine ih v' v h ?_
          intro r hr
          have hrm : r ∈ entriesRefs m := lookupKey_refs hlk r hr
          have hedge : Edge σ a r := ⟨m, hm, hrm⟩
          exact ⟨hcl a r ha.1 hedge, hwf.2 a m hm r hrm⟩
    | null => cases h
    | bool b => cases h
    | int n => cases h
    | str s => cases h
    | arr es => cases h

theorem mergeLoopH_inv {σ₀ : Store} {scA usA hvA : Nat}
    (hwf₀ : WF σ₀) (hscA : scA < σ₀.next) (husA : usA < σ₀.next)
    (hdisj : ∀ x, Reach σ₀ usA x → ¬ Reach σ₀ scA x)
    (hhvA : σ₀.next ≤ hvA)
    (entries : List (String × HVal)) :
    ∀ σ σ' e, mergeLoopH usA hvA σ entries = (σ', e) →
      MergeInv σ₀ scA usA σ → MergeInv σ₀ scA usA σ' := by
  have hscbound : ∀ x, Reach σ₀ scA x → x < σ₀.next :=
    fun x hx => reach_lt_next hwf₀ hscA hx
  induction entries with
  | nil =>
    intro σ σ' e h hinv
    simp only [mergeLoopH] at h
    cases h
    exact hinv
  | cons kv rest ih =>
    intro σ σ' e h hinv
    obtain ⟨xrdPath, helmPathRaw⟩ := kv
    simp only [mergeLoopH] at h
    cases helmPathRaw with
    | str helmPath =>
      cases hget : getValueByPathH σ usA xrdPath with
      | error e' =>
        rw [hget] at h
        exact ih σ σ' e h hinv
      | ok value =>
        rw [hget] at h
        dsimp only at h
        obtain ⟨hnext, hwf, hfrozen, hcl⟩ := hinv
        -- the value read from the user spec lies in the working set
        have hvrefs : ∀ r ∈ hvalRefs value, UMem σ₀ usA r ∧ r < σ.next := by
          have hroot : ∀ r ∈ hvalRefs (HVal.mref usA), UMem σ₀ usA r ∧ r < σ.next := by
            intro r hr
            simp only [hvalRefs, List.mem_singleton] at hr
            subst hr
            exact ⟨Or.inl Relation.ReflTransGen.refl, by omega⟩
          unfold getValueByPathH at hget
          exact getGoH_refs _ hwf hcl _ _ hget hroot
        -- one write step preserves the invariant
        have hstep : ∀ σn en, setValueByPathH σ hvA helmPath value = (σn, en) →
            MergeInv σ₀ scA usA σn := by
          intro σn en hset
          unfold setValueByPathH at hset
          by_cases hemp : (splitDot helmPath).isEmpty
          · rw [if_pos hemp] at hset
            cases hset
            exact ⟨hnext, hwf, hfrozen, hcl⟩
          · rw [if_neg hemp] at hset
            obtain ⟨hn', hwf', hE, hU⟩ :=
              setGoH_spec _ σ hvA value σn en hset hwf fun r hr => (hvrefs r hr).2
            refine ⟨by omega, hwf', ?_, ?_⟩
            · intro x hx
              have hxb : x < σ₀.next := hscbound x hx
              have hnr : ¬ Reach σ hvA x := by
                intro hr
                have hum : UMem σ₀ usA x :=
                  umem_reach hcl (Or.inr hhvA) hr
                rcases hum with hum | hum
                · exact hdisj x hum hx
                · omega
              rw [hU x (by omega) hnr]
              exact hfrozen x hx
            · intro x y hx he
              rcases hE x y he with hh | hh | hh
              · exact hcl x y hx hh
              · exact (hvrefs y hh).1
              · exact Or.inr (by omega)
        cases hset : setValueByPathH σ hvA helmPath value with
        | mk σn en =>
          rw [hset] at h
          cases en with
          | none =>
            exact ih σn σ' e h (hstep σn none hset)
          | some e2 =>
            cases h
            exact hstep σ' (some e2) hset
    | null => exact ih σ σ' e h hinv
    | bool b => exact ih σ σ' e h hinv
    | int n => exact ih σ σ' e h hinv
    | mref a => exact ih σ σ' e h hinv
    | arr es => exact ih σ σ' e h hinv

theorem read_agree (f : Nat) (σ σ' : Store) :
    (∀ v : HVal,
       (∀ x, (∃ r ∈ hvalRefs v, Reach σ r x) → σ'.find x = σ.find x) →
       readVal σ' f v = readVal σ f v) ∧
    (∀ m : List (String × HVal),
       (∀ x, (∃ r ∈ entriesRefs m, Reach σ r x) → σ'.find x = σ.find x) →
       readEntries σ' f m = readEntries σ f m) ∧
    (∀ es : List HVal,
       (∀ x, (∃ r ∈ hvalListRefs es, Reach σ r x) → σ'.find x = σ.find x) →
       readElems σ' f es = readElems σ f es) := by
  induction f with
  | zero => exact ⟨fun v _ => rfl, fun m _ => rfl, fun es _ => rfl⟩
  | succ f ih =>
    refine ⟨?_, ?_, ?_⟩
    · intro v h
      cases v with
      | null => rfl
      | bool b => rfl
      | int n => rfl
      | str s => rfl
      | arr es =>
        simp only [readVal]
        rw [ih.2.2 es h]
      | mref a =>
        have ha : σ'.find a = σ.find a :=
          h a ⟨a, by simp [hvalRefs], Relation.ReflTransGen.refl⟩
        simp only [readVal, ha]
        cases hm : σ.find a with
        | none => rfl
        | some m =>
          dsimp only
          rw [ih.2.1 m fun x hx => ?_]
          obtain ⟨r, hr, hrx⟩ := hx
          exact h x ⟨a, by simp [hvalRefs], reach_head ⟨m, hm, hr⟩ hrx⟩
    · intro m h
      cases m with
      | nil => rfl
      | cons kv rest =>
        obtain ⟨k, v⟩ := kv
        simp only [readEntries]
        rw [ih.1 v fun x hx => ?side1, ih.2.1 rest fun x hx => ?side2]
        case side1 =>
          obtain ⟨r, hr, hrx⟩ := hx
          exact h x ⟨r, by simp [entriesRefs, hr], hrx⟩
        case side2 =>
          obtain ⟨r, hr, hrx⟩ := hx
          exact h x ⟨r, by simp [entriesRefs, hr], hrx⟩
    · intro es h
      cases es with
      | nil => rfl
      | cons v rest =>
        simp only [readElems]
        rw [ih.1 v fun x hx => ?side3, ih.2.2 rest fun x hx => ?side4]
        case side3 =>
          obtain ⟨r, hr, hrx⟩ := hx
          exact h x ⟨r, by simp [hvalListRefs, hr], hrx⟩
        case side4 =>
          obtain ⟨r, hr, hrx⟩ := hx
          exact h x ⟨r, by simp [hvalListRefs, hr], hrx⟩

theorem genPassword32_exists (randomBytes : List Nat) (hlen : randomBytes.length = 32) :
    ∃ s : String, generateRandomPassword 32 randomBytes = some s ∧ s.length = 32 ∧
      ∀ c ∈ s.data, c ∈ urlAlphabet := by
  have he : (b64UrlEncode randomBytes).length = 44 := by
    rw [b64UrlEncode_length, hlen]
  refine ⟨String.mk ((b64UrlEncode randomBytes).take 32), ?_, ?_, ?_⟩
  · simp only [generateRandomPassword]
    rw [if_pos (by omega)]
  · show (List.take 32 (b64UrlEncode randomBytes)).length = 32
    rw [List.length_take, he]
    decide
  · intro c hc
    refine b64UrlEncode_take_mem randomBytes c (mem_take_of_le _ 32 _ ?_ c hc)
    rw [hlen]
    decide

/-! ## Claim theorems -/

/-- C1 (counterexample): the path round-trip `get(set(m, path, v), path) == v`
fails as stated.  At `m = {}`, `path = "spec"`, `v = 1`, the write stores `1`
under the key `"spec"`, but the read skips the leading `"spec"` segment and
returns the root mapping, not `1`. -/
theorem pathRoundTrip_spec_prefix_cex :
    setValueByPath [] "spec" (.int 1) = .ok [("spec", .int 1)] ∧
    getValueByPath [("spec", .int 1)] "spec" = .ok (.map [("spec", .int 1)]) ∧
    getValueByPath [("spec", .int 1)] "spec" ≠ .ok (.int 1) :=
  ⟨rfl, rfl, fun h => Value.noConfusion (Except.ok.inj h)⟩

/-- C1 (amended): the path round-trip holds for every path whose first
dot-segment is not the literal `"spec"` (which `getValueByPath` skips but
`setValueByPath` does not): whenever `setValueByPath m path v` succeeds with
`m'`, `getValueByPath m' path` returns `v`. -/
theorem pathRoundTrip (m m' : Obj) (path : String) (v : Value)
    (hfirst : (splitDot path).head? ≠ some "spec")
    (hset : setValueByPath m path v = .ok m') :
    getValueByPath m' path = .ok v := by
  cases hsp : splitDot path with
  | nil => exact absurd hsp (splitDot_ne_nil path)
  | cons p rest =>
    rw [hsp] at hfirst
    have hp : ¬(p = "spec") := by
      intro h
      exact hfirst (by rw [h]; rfl)
    simp only [setValueByPath, hsp, List.isEmpty_cons, Bool.false_eq_true, if_false] at hset
    simp only [getValueByPath, hsp, hp, if_false]
    exact getGo_setGo _ _ _ _ hset

/-- C1 (witness): a concrete round-trip through `setValueByPath` and
`getValueByPath` at path `"master.size"`. -/
theorem pathRoundTrip_witness :
    getValueByPath [("master", .map [("size", .str "1000m")])] "master.size" =
      .ok (.str "1000m") :=
  pathRoundTrip [] _ "master.size" _ (by decide) rfl

/-- C2: merge is defaults-preserving.  For any service configuration whose
`defaultHelmValues` and `mapping` fields are maps, and an empty user spec
supplying no value at any string-destination mapped source path,
`mergeConfigs` succeeds and returns exactly the deep copy of
`defaultHelmValues` as `helmValues`, with `chart` and (when present)
`connectionSecret` carried over from the service configuration. -/
theorem mergeDefaultsPreserving (sc d mp : Obj)
    (hd : lookupKey sc "defaultHelmValues" = some (.map d))
    (hm : lookupKey sc "mapping" = some (.map mp))
    (habs : mappingAllAbsent [] mp = true) :
    mergeConfigs sc [] =
      .ok ([("chart", (lookupKey sc "chart").getD .null),
            ("helmValues", .map (deepCopy d))] ++
        (match lookupKey sc "connectionSecret" with
         | some cs => [("connectionSecret", cs)]
         | none => [])) := by
  simp only [mergeConfigs, hd, hm, applyMappings_all_absent [] mp (deepCopy d) habs]
  cases lookupKey sc "connectionSecret" <;> rfl

/-- C2 (witness): defaults preservation on a concrete Redis-like service
configuration merged against the empty user spec. -/
theorem mergeDefaultsPreserving_witness :
    mergeConfigs
      [("chart", .map [("name", .str "redis")]),
       ("defaultHelmValues", .map [("auth", .map [("enabled", .bool true)])]),
       ("mapping", .map [("spec.size", .str "master.size")]),
       ("connectionSecret", .map [("passwordPath", .str "auth.password")])] [] =
    .ok [("chart", .map [("name", .str "redis")]),
         ("helmValues", .map [("auth", .map [("enabled", .bool true)])]),
         ("connectionSecret", .map [("passwordPath", .str "auth.password")])] :=
  (mergeDefaultsPreserving
    [("chart", .map [("name", .str "redis")]),
     ("defaultHelmValues", .map [("auth", .map [("enabled", .bool true)])]),
     ("mapping", .map [("spec.size", .str "master.size")]),
     ("connectionSecret", .map [("passwordPath", .str "auth.password")])]
    [("auth", .map [("enabled", .bool true)])]
    [("spec.size", .str "master.size")] rfl rfl (by decide)).trans rfl

/-- C3: the type-mismatch scenario.  With defaults
`{"master": "not-a-map"}`, mapping `{"spec.x": "master.y"}` and user spec
`{"x": 1}`, `mergeConfigs` fails with the propagated `TypeMismatch` from
`setValueByPath` and produces no merged tree. -/
theorem mergeTypeMismatchScenario :
    mergeConfigs
      [("defaultHelmValues", .map [("master", .str "not-a-map")]),
       ("mapping", .map [("spec.x", .str "master.y")])]
      [("x", .int 1)] = .error (.setFailed .typeMismatch) := rfl

/-- C4: secret reuse.  If the observed resources contain a `"secret"`
descriptor whose `data.password` field is a non-empty base64 string, then
`getOrGeneratePassword` returns exactly the base64-decoded value, for any
random bytes; hence two calls on the same observed snapshot agree, and the
secret is never regenerated once observed. -/
theorem passwordReuse (observed : Obj) (res : Value) (pw : String) (bytes : List Nat)
    (h1 : lookupKey observed "secret" = some res)
    (h2 : pavedGetValue res ["data", "password"] = some (.str pw))
    (h3 : pw ≠ "")
    (h4 : b64StdDecode pw = some bytes) :
    ∀ rnd1 rnd2 : List Nat,
      getOrGeneratePassword observed rnd1 = some (bytesToString bytes) ∧
      getOrGeneratePassword observed rnd1 = getOrGeneratePassword observed rnd2 := by
  have hex : tryExistingPassword observed = some (bytesToString bytes) := by
    simp only [tryExistingPassword, h1, h2, h3, if_false, h4]
  intro rnd1 rnd2
  constructor
  · simp [getOrGeneratePassword, hex]
  · simp [getOrGeneratePassword, hex]

/-- C4 (witness): an observed secret holding base64 `"YWJjMTIz"` is decoded
to `"abc123"` and reused identically across two calls with different random
bytes. -/
theorem passwordReuse_witness :
    getOrGeneratePassword
        [("secret", .map [("data", .map [("password", .str "YWJjMTIz")])])] [1, 2] =
      some "abc123" ∧
    getOrGeneratePassword
        [("secret", .map [("data", .map [("password", .str "YWJjMTIz")])])] [1, 2] =
      getOrGeneratePassword
        [("secret", .map [("data", .map [("password", .str "YWJjMTIz")])])] [9, 9, 9] := by
  have h := passwordReuse
    [("secret", .map [("data", .map [("password", .str "YWJjMTIz")])])]
    (.map [("data", .map [("password", .str "YWJjMTIz")])])
    "YWJjMTIz" [97, 98, 99, 49, 50, 51] rfl rfl (by decide) rfl [1, 2] [9, 9, 9]
  exact ⟨h.1.trans (by rfl), h.2⟩

/-- C5: template rendering.  `substituteVariables` leaves any template free
of the declared placeholders verbatim (no error), renders the spec's
connection-URL example exactly, and replaces known placeholders while
leaving unknown ones (`${scheme}`, `${port}`) untouched. -/
theorem substituteVariablesSpec :
    (∀ (template : String) (vars : List (String × String)),
       (∀ kv ∈ vars, hasSubstr (placeholder kv.1).data template.data = false) →
       substituteVariables template vars = template) ∧
    substituteVariables "redis://:${password}@${instanceName}:6379"
        [("password", "p1"), ("instanceName", "my-redis")] =
      "redis://:p1@my-redis:6379" ∧
    substituteVariables "redis://${scheme}:${password}@${instanceName}:${port}"
        [("instanceName", "my-redis"), ("namespace", "ns1"), ("password", "p1")] =
      "redis://${scheme}:p1@my-redis:${port}" :=
  ⟨substituteVariables_untouched, by decide, by decide⟩

/-- C5 (witness): a template without any declared placeholder is returned
verbatim by `substituteVariables` under the engine's variable set. -/
theorem substituteVariablesSpec_witness :
    substituteVariables "postgres://db.example.com:5432"
      [("instanceName", "i"), ("namespace", "n"), ("password", "p")] =
      "postgres://db.example.com:5432" :=
  substituteVariablesSpec.1 _ _ (by decide)

/-- C6: empty-path handling, evaluated on the code.  `strings.Split("", ".")`
is `[""]`, so the `len(parts) == 0` guard of `setValueByPath` never fires:
the empty path is NOT rejected — the write succeeds, storing the value under
the empty-string key — and `getValueByPath` on the empty path does not return
the root but looks up the empty-string key (failing with not-found on a map
without that key). -/
theorem emptyPathBehavior :
    setValueByPath [] "" (.int 7) = .ok [("", .int 7)] ∧
    getValueByPath [] "" = .error .notFound ∧
    getValueByPath [("", .int 5)] "" = .ok (.int 5) ∧
    splitDot "" = [""] :=
  ⟨rfl, rfl, rfl, rfl⟩

/-- C7 (counterexample): a `TypeMismatch` during the user-spec read is NOT
fatal.  With user spec `{"a": 1}` and mapping `{"a.b": "x"}`, the read
`getValueByPath(userSpec, "a.b")` fails with `TypeMismatch`, yet
`mergeConfigs` skips the entry and succeeds, contradicting the claim that
only absence is skipped. -/
theorem userSpecTypeMismatchSkippedCex :
    getValueByPath [("a", .int 1)] "a.b" = .error .typeMismatch ∧
    mergeConfigs
        [("defaultHelmValues", .map []), ("mapping", .map [("a.b", .str "x")])]
        [("a", .int 1)] =
      .ok [("chart", .null), ("helmValues", .map [])] :=
  ⟨rfl, rfl⟩

/-- C7 (amended): every `getValueByPath` failure on the user spec — key not
found and type mismatch alike — causes the mapping entry to be skipped
silently by the merge loop; only `setValueByPath` failures on the merge base
are fatal. -/
theorem userSpecGetErrorSkipped (us hv : Obj) (p s : String) (rest : Obj) (e : PathErr)
    (hget : getValueByPath us p = .error e) :
    applyMappings us hv ((p, .str s) :: rest) = applyMappings us hv rest := by
  simp only [applyMappings, hget]

/-- C7 (witness): the merge loop skips a concrete entry whose user-spec read
fails with `TypeMismatch`. -/
theorem userSpecGetErrorSkipped_witness :
    applyMappings [("a", .int 1)] [] [("a.b", .str "x")] =
      applyMappings [("a", .int 1)] [] [] :=
  userSpecGetErrorSkipped [("a", .int 1)] [] "a.b" "x" [] .typeMismatch rfl

/-- C8: merge frame.  In the heap model, for every well-formed store,
service-config cell and user-spec root sharing no reachable cell with
the service config, `mergeConfigsH` never mutates any cell reachable
from the service config — in particular the `defaultHelmValues` tree
reads back structurally unchanged at every fuel, whether the merge
succeeds or fails — because all writes go to the freshly allocated
deep copy; and on success the result cell carries the service config's
own `chart` and `connectionSecret` values unchanged next to the merged
copy. -/
theorem mergeFrame (σ₀ : Store) (scA usA dA : Nat) (scm : List (String × HVal))
    (fuel : Nat) (res : Except MergeErr Nat) (σF : Store)
    (hwf₀ : WF σ₀)
    (hsc : σ₀.find scA = some scm)
    (husA : usA < σ₀.next)
    (hdisj : ∀ x, Reach σ₀ usA x → ¬ Reach σ₀ scA x)
    (hdA : lookupKey scm "defaultHelmValues" = some (.mref dA))
    (hrun : mergeConfigsH fuel σ₀ scA usA = some (res, σF)) :
    (∀ x, Reach σ₀ scA x → σF.find x = σ₀.find x) ∧
    (∀ f, readVal σF f (.mref dA) = readVal σ₀ f (.mref dA)) ∧
    (∀ rA, res = .ok rA → ∃ hv : Nat,
       σF.find rA = some
         ([("chart", (lookupKey scm "chart").getD .null), ("helmValues", .mref hv)] ++
           (match lookupKey scm "connectionSecret" with
            | some cs => [("connectionSecret", cs)]
            | none => []))) := by
  have hscA : scA < σ₀.next := by
    by_contra hcon
    rw [hwf₀.1 scA (Nat.le_of_not_lt hcon)] at hsc
    cases hsc
  have hscbound : ∀ x, Reach σ₀ scA x → x < σ₀.next :=
    fun x hx => reach_lt_next hwf₀ hscA hx
  have hread : ∀ σE : Store, (∀ x, Reach σ₀ scA x → σE.find x = σ₀.find x) →
      ∀ f, readVal σE f (.mref dA) = readVal σ₀ f (.mref dA) := by
    intro σE hfz f
    refine (read_agree f σ₀ σE).1 _ ?_
    intro x hx
    obtain ⟨r, hr, hrx⟩ := hx
    simp only [hvalRefs, List.mem_singleton] at hr
    rw [hr] at hrx
    exact hfz x
      (reach_head ⟨scm, hsc, lookupKey_refs hdA dA (by simp [hvalRefs])⟩ hrx)
  simp only [mergeConfigsH] at hrun
  rw [hsc] at hrun
  dsimp only at hrun
  rw [hdA] at hrun
  dsimp only at hrun
  cases hdm : σ₀.find dA with
  | none => rw [hdm] at hrun; cases hrun
  | some dm =>
  rw [hdm] at hrun
  dsimp only at hrun
  cases hdc : dcEntries fuel σ₀ dm with
  | none => rw [hdc] at hrun; cases hrun
  | some p =>
  rw [hdc] at hrun
  obtain ⟨σ1, copied⟩ := p
  dsimp only at hrun
  have hD : DCOK σ₀ (σ1.alloc copied).1 [(σ1.alloc copied).2] :=
    DCOK_alloc ((dc_spec fuel).2.1 σ₀ dm σ1 copied hdc)
  obtain ⟨hDn, hDf, hDr, hDw⟩ := hD
  obtain ⟨hDwf, hDc⟩ := hDw hwf₀
  have hhvA : σ₀.next ≤ (σ1.alloc copied).2 :=
    (hDr _ (List.mem_singleton.mpr rfl)).1
  have hinv2 : MergeInv σ₀ scA usA (σ1.alloc copied).1 := by
    refine ⟨hDn, hDwf, ?_, ?_⟩
    · intro x hx
      exact hDf x (Or.inl (hscbound x hx))
    · intro x y hx he
      by_cases hcase : x < σ₀.next
      · rcases hx with hx | hx
        · obtain ⟨m2, hfind, hy⟩ := he
          rw [hDf x (Or.inl hcase)] at hfind
          exact Or.inl (hx.tail ⟨m2, hfind, hy⟩)
        · omega
      · obtain ⟨m2, hfind, hy⟩ := he
        exact Or.inr (hDc x m2 (Nat.le_of_not_lt hcase) hfind y hy).1
  cases hmk : lookupKey scm "mapping" with
  | none =>
    rw [hmk] at hrun
    cases hrun
    refine ⟨hinv2.2.2.1, hread _ hinv2.2.2.1, ?_⟩
    intro rA hres
    cases hres
  | some w =>
  rw [hmk] at hrun
  cases w with
  | mref mA =>
    dsimp only at hrun
    cases hmap : (σ1.alloc copied).1.find mA with
    | none => rw [hmap] at hrun; cases hrun
    | some mapping =>
    rw [hmap] at hrun
    dsimp only at hrun
    cases hloop : mergeLoopH usA (σ1.alloc copied).2 (σ1.alloc copied).1 mapping with
    | mk σ3 e3 =>
    rw [hloop] at hrun
    have hinv3 : MergeInv σ₀ scA usA σ3 :=
      mergeLoopH_inv hwf₀ hscA husA hdisj hhvA mapping _ _ _ hloop hinv2
    have hfz3 : ∀ x, Reach σ₀ scA x → σ3.find x = σ₀.find x := hinv3.2.2.1
    cases e3 with
    | some e =>
      cases hrun
      refine ⟨hfz3, hread _ hfz3, ?_⟩
      intro rA hres
      cases hres
    | none =>
      dsimp only at hrun
      have hsc3 : σ3.find scA = some scm := by
        rw [hfz3 scA Relation.ReflTransGen.refl]
        exact hsc
      rw [hsc3] at hrun
      dsimp only at hrun
      cases hrun
      have hfzF : ∀ (ent : List (String × HVal)) (x : Nat), Reach σ₀ scA x →
          (σ3.alloc ent).1.find x = σ₀.find x := by
        intro ent x hx
        rw [find_alloc, if_neg ?_]
        · exact hfz3 x hx
        · have hx0 : x < σ₀.next := hscbound x hx
          have : σ₀.next ≤ σ3.next := hinv3.1
          omega
      refine ⟨hfzF _, hread _ (hfzF _), ?_⟩
      intro rA hres
      cases hres
      refine ⟨(σ1.alloc copied).2, ?_⟩
      cases lookupKey scm "connectionSecret" with
      | none =>
        dsimp only
        rw [addr_alloc σ3, find_alloc, if_pos rfl]
        simp
      | some cs =>
        dsimp only
        rw [addr_alloc σ3, find_alloc, if_pos rfl]
  | null =>
    cases hrun
    exact ⟨hinv2.2.2.1, hread _ hinv2.2.2.1, fun rA hres => by cases hres⟩
  | bool b =>
    cases hrun
    exact ⟨hinv2.2.2.1, hread _ hinv2.2.2.1, fun rA hres => by cases hres⟩
  | int n =>
    cases hrun
    exact ⟨hinv2.2.2.1, hread _ hinv2.2.2.1, fun rA hres => by cases hres⟩
  | str s =>
    cases hrun
    exact ⟨hinv2.2.2.1, hread _ hinv2.2.2.1, fun rA hres => by cases hres⟩
  | arr es =>
    cases hrun
    exact ⟨hinv2.2.2.1, hread _ hinv2.2.2.1, fun rA hres => by cases hres⟩

/-- C8 (witness): on the concrete four-cell store, running the heap
merge leaves the `defaultHelmValues` cell reading back exactly as
before. -/
theorem mergeFrame_witness :
    readVal ((mergeConfigsH 10 witnessStore 0 3).getD
        (.error .defaultsNotMap, witnessStore)).2 6 (.mref 1) =
      readVal witnessStore 6 (.mref 1) ∧
    readVal witnessStore 6 (.mref 1) = some (.map [("replicas", .int 1)]) := by
  have hwf : WF witnessStore := by
    constructor
    · intro a ha
      rw [show witnessStore.next = 4 from rfl] at ha
      show (if a = 0 then _ else if a = 1 then _ else if a = 2 then _
            else if a = 3 then _ else none) = none
      rw [if_neg (by omega), if_neg (by omega), if_neg (by omega), if_neg (by omega)]
    · intro a m h r hr
      show r < 4
      by_cases h0 : a = 0
      · subst h0
        have hm : m = [("defaultHelmValues", .mref 1), ("mapping", .mref 2),
            ("chart", .str "redis"), ("connectionSecret", .str "tpl")] := by
          have : witnessStore.find 0 = some [("defaultHelmValues", .mref 1),
              ("mapping", .mref 2), ("chart", .str "redis"),
              ("connectionSecret", .str "tpl")] := rfl
          rw [this] at h
          cases h
          rfl
        subst hm
        have : r = 1 ∨ r = 2 := by
          simpa [entriesRefs, hvalRefs] using hr
        omega
      · by_cases h1 : a = 1
        · subst h1
          have hm : m = [("replicas", .int 1)] := by
            have : witnessStore.find 1 = some [("replicas", .int 1)] := rfl
            rw [this] at h
            cases h
            rfl
          subst hm
          simp [entriesRefs, hvalRefs] at hr
        · by_cases h2 : a = 2
          · subst h2
            have hm : m = [("spec.replicas", .str "replicaCount")] := by
              have : witnessStore.find 2 = some [("spec.replicas", .str "replicaCount")] := rfl
              rw [this] at h
              cases h
              rfl
            subst hm
            simp [entriesRefs, hvalRefs] at hr
          · by_cases h3 : a = 3
            · subst h3
              have hm : m = [] := by
                have : witnessStore.find 3 = some [] := rfl
                rw [this] at h
                cases h
                rfl
              subst hm
              simp [entriesRefs] at hr
            · have : witnessStore.find a = none := by
                show (if a = 0 then _ else if a = 1 then _ else if a = 2 then _
                      else if a = 3 then _ else none) = none
                rw [if_neg h0, if_neg h1, if_neg h2, if_neg h3]
              rw [this] at h
              cases h
  have hus3 : ∀ x, Reach witnessStore 3 x → x = 3 := by
    intro x hr
    refine reach_closed (S := fun u => u = 3) ?_ hr rfl
    intro u hu y he
    obtain ⟨m, hm, hy⟩ := he
    subst hu
    have : witnessStore.find 3 = some [] := rfl
    rw [this] at hm
    cases hm
    simp [entriesRefs] at hy
  have hsc3 : ∀ x, Reach witnessStore 0 x → (x = 0 ∨ x = 1 ∨ x = 2) := by
    intro x hr
    refine reach_closed (S := fun u => u = 0 ∨ u = 1 ∨ u = 2) ?_ hr (Or.inl rfl)
    intro u hu y he
    obtain ⟨m, hm, hy⟩ := he
    rcases hu with rfl | rfl | rfl
    · have : witnessStore.find 0 = some [("defaultHelmValues", .mref 1),
          ("mapping", .mref 2), ("chart", .str "redis"),
          ("connectionSecret", .str "tpl")] := rfl
      rw [this] at hm
      cases hm
      have : y = 1 ∨ y = 2 := by
        simpa [entriesRefs, hvalRefs] using hy
      tauto
    · have : witnessStore.find 1 = some [("replicas", .int 1)] := rfl
      rw [this] at hm
      cases hm
      simp [entriesRefs, hvalRefs] at hy
    · have : witnessStore.find 2 = some [("spec.replicas", .str "replicaCount")] := rfl
      rw [this] at hm
      cases hm
      simp [entriesRefs, hvalRefs] at hy
  have hdisj : ∀ x, Reach witnessStore 3 x → ¬ Reach witnessStore 0 x := by
    intro x h3 h0
    have hx3 : x = 3 := hus3 x h3
    have := hsc3 x h0
    omega
  have h := mergeFrame witnessStore 0 3 1
    [("defaultHelmValues", .mref 1), ("mapping", .mref 2),
     ("chart", .str "redis"), ("connectionSecret", .str "tpl")] 10
    ((mergeConfigsH 10 witnessStore 0 3).getD (.error .defaultsNotMap, witnessStore)).1
    ((mergeConfigsH 10 witnessStore 0 3).getD (.error .defaultsNotMap, witnessStore)).2
    hwf rfl (by decide) hdisj rfl rfl
  exact ⟨h.2.1 6, rfl⟩

/-- C9: generated password length and truncation safety.  For 32 random
bytes the generated password is exactly 32 characters, all from the URL-safe
base64 alphabet; and for random bytes of any length `n`, the base64
URL-encoding has at least `n` characters, so the `[:length]` truncation is
always in range (the panic branch, modeled as `none`, is unreachable). -/
theorem generateRandomPasswordSafe :
    (∀ randomBytes : List Nat, randomBytes.length = 32 →
       (∀ b ∈ randomBytes, b < 256) →
       ∃ s : String, generateRandomPassword 32 randomBytes = some s ∧
         s.length = 32 ∧ ∀ c ∈ s.data, c ∈ urlAlphabet) ∧
    (∀ randomBytes : List Nat,
       randomBytes.length ≤ (b64UrlEncode randomBytes).length ∧
       (generateRandomPassword randomBytes.length randomBytes).isSome = true) := by
  constructor
  · intro randomBytes hlen _
    exact genPassword32_exists randomBytes hlen
  · intro randomBytes
    have hge : randomBytes.length ≤ (b64UrlEncode randomBytes).length := by
      rw [b64UrlEncode_length]
      omega
    refine ⟨hge, ?_⟩
    simp only [generateRandomPassword]
    rw [if_pos hge]
    rfl

/-- C9 (witness): 32 zero bytes produce a 32-character URL-base64 password. -/
theorem generateRandomPasswordSafe_witness :
    ∃ s : String, generateRandomPassword 32 (List.replicate 32 0) = some s ∧
      s.length = 32 ∧ ∀ c ∈ s.data, c ∈ urlAlphabet :=
  generateRandomPasswordSafe.1 (List.replicate 32 0) (by decide) (by decide)

/-- C10: malformed-password fallback.  If the observed `"secret"` descriptor
is absent, lacks `data.password`, or holds a non-string, empty, or
invalid-base64 value there, `getOrGeneratePassword` never fails: it returns
the freshly generated 32-character random password. -/
theorem malformedSecretFallback (observed : Obj) (randomBytes : List Nat)
    (hmal : lookupKey observed "secret" = none ∨
      ∃ res, lookupKey observed "secret" = some res ∧
        (pavedGetValue res ["data", "password"] = none ∨
         (∃ v, pavedGetValue res ["data", "password"] = some v ∧ ∀ s, v ≠ .str s) ∨
         pavedGetValue res ["data", "password"] = some (.str "") ∨
         (∃ pw, pavedGetValue res ["data", "password"] = some (.str pw) ∧
            b64StdDecode pw = none)))
    (hlen : randomBytes.length = 32) :
    getOrGeneratePassword observed randomBytes = generateRandomPassword 32 randomBytes ∧
    ∃ s : String, getOrGeneratePassword observed randomBytes = some s ∧ s.length = 32 := by
  have htry : tryExistingPassword observed = none := by
    rcases hmal with hnone | ⟨res, hres, hbad⟩
    · simp only [tryExistingPassword, hnone]
    · rcases hbad with hnf | ⟨v, hv, hnst⟩ | hempty | ⟨pw, hpw, hdec⟩
      · simp only [tryExistingPassword, hres, hnf]
      · simp only [tryExistingPassword, hres, hv]
        cases v with
        | str s => exact absurd rfl (hnst s)
        | null => rfl
        | bool b => rfl
        | int n => rfl
        | map m => rfl
        | arr a => rfl
      · simp [tryExistingPassword, hres, hempty]
      · simp only [tryExistingPassword, hres, hpw, hdec]
        split <;> rfl
  obtain ⟨s, hs, hslen, _⟩ := genPassword32_exists randomBytes hlen
  refine ⟨?_, s, ?_, hslen⟩
  · simp only [getOrGeneratePassword, htry]
  · simp only [getOrGeneratePassword, htry]
    exact hs

/-- C10 (witness): an observed secret whose `data.password` is not valid
base64 falls back to a fresh 32-character generated password. -/
theorem malformedSecretFallback_witness :
    ∃ s : String,
      getOrGeneratePassword
          [("secret", .map [("data", .map [("password", .str "!not base64!")])])]
          (List.replicate 32 0) = some s ∧ s.length = 32 :=
  (malformedSecretFallback
    [("secret", .map [("data", .map [("password", .str "!not base64!")])])]
    (List.replicate 32 0)
    (Or.inr ⟨.map [("data", .map [("password", .str "!not base64!")])], rfl,
      Or.inr (Or.inr (Or.inr ⟨"!not base64!", rfl, by decide⟩))⟩)
    (by decide)).2

end AppCat
